import Mathlib

/-!
Verification of the FIFO cost-basis engine of `streamlit_trading_analyzer.py`.

The core function `calculate_average_purchase_price` takes a table of trade
rows (columns: currency pair, side, quantity, price), groups rows by the
currency-pair string, replays each group through a FIFO lot queue and reports
per-pair summary statistics.  We embed the rows as a `List Trade` over ℚ
(the idealized decimal arithmetic the script performs on its numbers), the
mutable `buys` list as a `List Lot`, and the per-row processing as a fold.

Python `round(x, n)` is embedded as `roundTo x n` (scale by `10 ^ n`, round to
the nearest integer, scale back); all concrete inputs used below avoid exact
half-way ties, where Python's bankers rounding could differ.
-/

namespace TradingAnalyzer

/-- One input row of the uploaded table: 通貨ペア, 売/買, 数量, 価格. -/
structure Trade where
  instrument : String
  side : String
  quantity : ℚ
  price : ℚ
deriving DecidableEq, Repr

/-- The derived 取引金額 column: `df['数量'] * df['価格']`. -/
def Trade.amount (t : Trade) : ℚ := t.quantity * t.price

/-- One entry of the mutable `buys` list: `{'quantity': .., 'price': .., 'amount': ..}`. -/
structure Lot where
  quantity : ℚ
  price : ℚ
  amount : ℚ
deriving DecidableEq, Repr

/-- Rounding to the nearest integer, halves up; `roundQ_eq` identifies it with
Mathlib's `round`.  Python's `round` breaks exact halves to the even side, so
every concrete input below avoids exact half-way ties. -/
def roundQ (x : ℚ) : ℤ := ⌊x + 1/2⌋

/-- Python `round(x, n)` on the idealized decimal value. -/
def roundTo (x : ℚ) (n : ℕ) : ℚ := ((roundQ (x * 10 ^ n) : ℤ) : ℚ) / 10 ^ n

/-- Python `str.lower()`, on the ASCII side strings the script compares
against (`'buy'`/`'sell'`). -/
def strLower (s : String) : String := ⟨s.data.map Char.toLower⟩

/-- The test `row['売/買'].lower() == 'buy'`. -/
def isBuy (t : Trade) : Bool := strLower t.side == "buy"

/-- The test `row['売/買'].lower() == 'sell'`. -/
def isSell (t : Trade) : Bool := strLower t.side == "sell"

/-- The lot appended for a buy row:
`buys.append({'quantity': qty, 'price': price, 'amount': amount})` where
`amount` is the derived 取引金額 column, `qty * price`. -/
def mkLot (t : Trade) : Lot :=
  { quantity := t.quantity, price := t.price, amount := t.quantity * t.price }

/-- The FIFO consumption loop of a sell:
`while sell_qty > 0 and i < len(buys): ...` with `i` pinned at 0 — fully
consumed front lots are popped, a partially consumed front lot gets
`quantity -= sell_qty` and `amount = quantity * price` recomputed. -/
def sellStep : List Lot → ℚ → List Lot
  | [], _ => []
  | l :: rest, s =>
    if s ≤ 0 then l :: rest
    else if l.quantity ≤ s then sellStep rest (s - l.quantity)
    else { quantity := l.quantity - s, price := l.price,
           amount := (l.quantity - s) * l.price } :: rest

/-- Processing of one row inside the per-pair loop.  The running
`remaining_quantity` accumulator of the script is dead code (never read when
building the summary), so the fold state is just the `buys` list.  A side
other than buy/sell (case-insensitively) leaves the queue untouched. -/
def stepTrade (buys : List Lot) (t : Trade) : List Lot :=
  if isBuy t then buys ++ [mkLot t]
  else if isSell t then sellStep buys t.quantity
  else buys

/-- The `buys` list after replaying a pair's rows in input order. -/
def finalQueue (rows : List Trade) : List Lot := rows.foldl stepTrade []

/-- The sum `sum(b['quantity'] for b in buys)`. -/
def queueQty (q : List Lot) : ℚ := (q.map (fun l => l.quantity)).sum

/-- The sum `sum(b['amount'] for b in buys)`. -/
def queueAmt (q : List Lot) : ℚ := (q.map (fun l => l.amount)).sum

/-- Minimum of a column, as pandas `.min()` computes it on a nonempty column
(the script never builds an empty group; `0` is an arbitrary value for `[]`). -/
def listMin : List ℚ → ℚ
  | [] => 0
  | x :: xs => xs.foldl min x

/-- Maximum of a column, as pandas `.max()` on a nonempty column. -/
def listMax : List ℚ → ℚ
  | [] => 0
  | x :: xs => xs.foldl max x

/-- The per-pair result dictionary built at lines 56–66 of the script. -/
structure InstrumentSummary where
  average_purchase_price : ℚ
  total_purchase_quantity : ℚ
  total_purchase_amount : ℚ
  purchase_count : ℕ
  sell_count : ℕ
  total_transactions : ℕ
  min_price : ℚ
  max_price : ℚ
  current_holdings : ℚ
deriving DecidableEq, Repr

/-- The summary of one currency pair's rows (the body of the per-pair loop of
`calculate_average_purchase_price`). -/
def computePair (rows : List Trade) : InstrumentSummary :=
  let buys := finalQueue rows
  let remaining_total_qty := queueQty buys
  let remaining_total_amount := queueAmt buys
  let average_price :=
    if remaining_total_qty > 0 then remaining_total_amount / remaining_total_qty else 0
  { average_purchase_price := roundTo average_price 2
    total_purchase_quantity := roundTo (queueQty buys) 8
    total_purchase_amount := roundTo (queueAmt buys) 2
    purchase_count := (rows.filter isBuy).length
    sell_count := (rows.filter isSell).length
    total_transactions := rows.length
    min_price := roundTo (listMin (rows.map (fun t => t.price))) 2
    max_price := roundTo (listMax (rows.map (fun t => t.price))) 2
    current_holdings := roundTo remaining_total_qty 8 }

/-- Pandas `df['通貨ペア'].unique()`: the distinct pair strings in first-seen order. -/
def uniqueKeys (ks : List String) : List String :=
  ks.foldl (fun acc k => if k ∈ acc then acc else acc ++ [k]) []

/-- The function `calculate_average_purchase_price`: group the rows by exact equality of
the 通貨ペア string (`df[df['通貨ペア'] == currency_pair]`) and summarize each
group.  `df.sort_index()` on a freshly read CSV is the identity, so rows stay
in input order. -/
def compute (trades : List Trade) : List (String × InstrumentSummary) :=
  (uniqueKeys (trades.map (fun t => t.instrument))).map
    (fun k => (k, computePair (trades.filter (fun t => t.instrument = k))))

/-- The fields `main` attaches to a pair's summary dict (lines 143–161).
`main` first sets `stats['profit'] = round(valuation - purchase, 2)` while the
`'valuation'` key is not yet present (`stats.get('valuation', 0.0)` is `0.0`),
and only afterwards fetches prices and sets `current_price`/`valuation`
(`valuation = 0.0` when the fetch failed). -/
structure Enriched where
  profit : ℚ
  current_price : Option ℚ
  valuation : ℚ
deriving DecidableEq, Repr

/-- The enrichment `main` performs for one pair, given the fetched price
(`none` = fetch failure), in the order the statements execute. -/
def enrich (s : InstrumentSummary) (fetched : Option ℚ) : Enriched :=
  let profit := roundTo (0 - s.total_purchase_amount) 2
  { profit := profit
    current_price := fetched.map (fun p => roundTo p 2)
    valuation :=
      match fetched with
      | some p => roundTo (p * s.current_holdings) 2
      | none => 0 }

/-- The trades of the spec's first concrete scenario:
Buy 1.0 @ 100, Buy 1.0 @ 200, Sell 1.5 (sell price irrelevant to the claim). -/
def rowsScenario1 : List Trade :=
  [⟨"btc_jpy", "Buy", 1, 100⟩, ⟨"btc_jpy", "Buy", 1, 200⟩, ⟨"btc_jpy", "Sell", 3/2, 150⟩]

/-- The trades of the spec's min/max example: Buy@100, Sell@150, Buy@90. -/
def rowsMinMax : List Trade :=
  [⟨"btc_jpy", "Buy", 1, 100⟩, ⟨"btc_jpy", "Sell", 1, 150⟩, ⟨"btc_jpy", "Buy", 1, 90⟩]

/-- A single buy of 1.0 @ 100. -/
def rowsOneBuy : List Trade := [⟨"btc_jpy", "Buy", 1, 100⟩]

/-- A single buy whose quantity `1e-9` is below the 8-decimal reporting
precision. -/
def rowsTiny : List Trade := [⟨"btc_jpy", "Buy", 1/1000000000, 100⟩]

/-- Two buys whose quantity-weighted mean price `301/3` is not a 2-decimal
number. -/
def rowsTwoBuys : List Trade := [⟨"btc_jpy", "Buy", 2, 100⟩, ⟨"btc_jpy", "Buy", 1, 101⟩]

/-- A single buy at price `100.004`, which is not a 2-decimal number. -/
def rowsOddPrice : List Trade := [⟨"btc_jpy", "Buy", 1, 100 + 1/250⟩]

/-- Two buys whose instrument strings differ only in letter case. -/
def rowsTwoCases : List Trade := [⟨"btc_jpy", "Buy", 1, 100⟩, ⟨"BTC_JPY", "Buy", 1, 100⟩]

/-- A sell of quantity 0 carrying price 999. -/
def tradeSellZero : Trade := ⟨"btc_jpy", "Sell", 0, 999⟩

/-- The list `rowsOneBuy` followed by the quantity-0 sell. -/
def rowsSellZero : List Trade := [⟨"btc_jpy", "Buy", 1, 100⟩, tradeSellZero]

/-- Buy 2.0 @ 100 then Sell 3.0: the spec's over-sell scenario. -/
def rowsOverSellBuys : List Trade := [⟨"btc_jpy", "Buy", 2, 100⟩]

/-- The sell part of the over-sell scenario. -/
def rowsOverSellSells : List Trade := [⟨"btc_jpy", "Sell", 3, 100⟩]

/-- A sell arriving before the only buy: total sell quantity (3) exceeds total
buy quantity (2), yet the buy's lot survives because the sell found an empty
queue. -/
def rowsSellFirst : List Trade := [⟨"btc_jpy", "Sell", 3, 100⟩, ⟨"btc_jpy", "Buy", 2, 100⟩]

/-- A single buy of quantity 0: the script appends a lot with
`remaining_quantity = 0` to the queue. -/
def rowsZeroBuy : List Trade := [⟨"btc_jpy", "Buy", 0, 100⟩]

theorem roundQ_eq (x : ℚ) : roundQ x = round x := (round_eq x).symm

theorem roundQ_eq_of {x : ℚ} {k : ℤ} (h1 : (k : ℚ) ≤ x + 1/2)
    (h2 : x + 1/2 < k + 1) : roundQ x = k :=
  Int.floor_eq_iff.mpr ⟨h1, h2⟩

theorem roundTo_eq_of {x : ℚ} {n : ℕ} {k : ℤ} (h1 : (k : ℚ) ≤ x * 10 ^ n + 1/2)
    (h2 : x * 10 ^ n + 1/2 < k + 1) : roundTo x n = (k : ℚ) / 10 ^ n := by
  rw [roundTo, roundQ_eq_of h1 h2]

/-- Python `round(x, n)` returns its argument unchanged whenever the argument is an
integer multiple of `10 ^ (-n)`. -/
theorem roundTo_exact {x : ℚ} {n : ℕ} {k : ℤ} (h : x * 10 ^ n = (k : ℚ)) :
    roundTo x n = x := by
  have h10 : (0 : ℚ) < 10 ^ n := by positivity
  have h1 : (k : ℚ) ≤ x * 10 ^ n + 1/2 := by rw [h]; linarith
  have h2 : x * 10 ^ n + 1/2 < k + 1 := by rw [h]; linarith
  rw [roundTo_eq_of h1 h2, ← h, mul_div_assoc, div_self (ne_of_gt h10), mul_one]

theorem roundTo_zero (n : ℕ) : roundTo 0 n = 0 := by
  have : (0 : ℚ) * 10 ^ n = ((0 : ℤ) : ℚ) := by norm_num
  exact roundTo_exact this

theorem roundTo_mono {x y : ℚ} (n : ℕ) (h : x ≤ y) : roundTo x n ≤ roundTo y n := by
  have h10 : (0 : ℚ) < 10 ^ n := by positivity
  have hf : (⌊x * 10 ^ n + 1/2⌋ : ℤ) ≤ ⌊y * 10 ^ n + 1/2⌋ := by
    apply Int.floor_le_floor
    have := mul_le_mul_of_nonneg_right h (le_of_lt h10)
    linarith
  unfold roundTo roundQ
  exact (div_le_div_iff_of_pos_right h10).mpr (by exact_mod_cast hf)

theorem isBuy_buy (i : String) (q p : ℚ) : isBuy ⟨i, "Buy", q, p⟩ = true := rfl

theorem isBuy_sell (i : String) (q p : ℚ) : isBuy ⟨i, "Sell", q, p⟩ = false := rfl

theorem isSell_sell (i : String) (q p : ℚ) : isSell ⟨i, "Sell", q, p⟩ = true := rfl

theorem isSell_buy (i : String) (q p : ℚ) : isSell ⟨i, "Buy", q, p⟩ = false := rfl

theorem isBuy_false_of_isSell {t : Trade} (h : isSell t = true) : isBuy t = false := by
  have hside : strLower t.side = "sell" := by
    have := of_decide_eq_true h
    exact this
  rw [isBuy, hside]
  rfl

theorem stepTrade_buy {t : Trade} (q : List Lot) (h : isBuy t = true) :
    stepTrade q t = q ++ [mkLot t] := by
  rw [stepTrade, h]
  rfl

theorem stepTrade_sell {t : Trade} (q : List Lot) (h : isSell t = true) :
    stepTrade q t = sellStep q t.quantity := by
  rw [stepTrade, isBuy_false_of_isSell h, h]
  rfl

theorem sellStep_nonpos {s : ℚ} (q : List Lot) (h : s ≤ 0) : sellStep q s = q := by
  cases q with
  | nil => rfl
  | cons l rest => rw [sellStep, if_pos h]

theorem sellStep_zero (q : List Lot) : sellStep q 0 = q := sellStep_nonpos q le_rfl

/-- Positivity of lot quantities is preserved by the FIFO consumption loop. -/
theorem sellStep_pos {q : List Lot} (s : ℚ) (h : ∀ l ∈ q, 0 < l.quantity) :
    ∀ l ∈ sellStep q s, 0 < l.quantity := by
  induction q generalizing s with
  | nil => intro l hl; simp [sellStep] at hl
  | cons a rest ih =>
    intro l hl
    rw [sellStep] at hl
    by_cases h0 : s ≤ 0
    · rw [if_pos h0] at hl
      exact h l hl
    · rw [if_neg h0] at hl
      by_cases h1 : a.quantity ≤ s
      · rw [if_pos h1] at hl
        exact ih (s - a.quantity) (fun l' hl' => h l' (List.mem_cons_of_mem a hl')) l hl
      · rw [if_neg h1] at hl
        rcases List.mem_cons.mp hl with hl | hl
        · rw [hl]
          simp only []
          push_neg at h0 h1
          linarith
        · exact h l (List.mem_cons_of_mem a hl)

theorem stepTrade_pos {q : List Lot} {t : Trade}
    (hb : isBuy t = true → 0 < t.quantity) (h : ∀ l ∈ q, 0 < l.quantity) :
    ∀ l ∈ stepTrade q t, 0 < l.quantity := by
  intro l hl
  rw [stepTrade] at hl
  by_cases hbuy : isBuy t = true
  · rw [if_pos hbuy] at hl
    rcases List.mem_append.mp hl with hl | hl
    · exact h l hl
    · rw [List.mem_singleton.mp hl]
      exact hb hbuy
  · rw [if_neg hbuy] at hl
    by_cases hsell : isSell t = true
    · rw [if_pos hsell] at hl
      exact sellStep_pos t.quantity h l hl
    · rw [if_neg hsell] at hl
      exact h l hl

/-- Positivity of lot quantities is preserved by replaying any list of trades
whose buys all have positive quantity. -/
theorem foldl_pos {ts : List Trade} (hb : ∀ t ∈ ts, isBuy t = true → 0 < t.quantity)
    {q : List Lot} (h : ∀ l ∈ q, 0 < l.quantity) :
    ∀ l ∈ ts.foldl stepTrade q, 0 < l.quantity := by
  induction ts generalizing q with
  | nil => exact h
  | cons t rest ih =>
    rw [List.foldl_cons]
    exact ih (fun t' ht' => hb t' (List.mem_cons_of_mem t ht'))
      (stepTrade_pos (hb t (List.mem_cons_self t rest)) h)

theorem queueQty_nonneg {q : List Lot} (h : ∀ l ∈ q, 0 < l.quantity) :
    0 ≤ queueQty q := by
  apply List.sum_nonneg
  intro x hx
  rcases List.mem_map.mp hx with ⟨l, hl, rfl⟩
  exact le_of_lt (h l hl)

theorem eq_nil_of_queueQty_eq_zero {q : List Lot} (h : ∀ l ∈ q, 0 < l.quantity)
    (h0 : queueQty q = 0) : q = [] := by
  cases q with
  | nil => rfl
  | cons l rest =>
    exfalso
    have hl : 0 < l.quantity := h l (List.mem_cons_self l rest)
    have hrest : 0 ≤ queueQty rest :=
      queueQty_nonneg (fun l' hl' => h l' (List.mem_cons_of_mem l hl'))
    have : queueQty (l :: rest) = l.quantity + queueQty rest := by
      simp [queueQty]
    rw [this] at h0
    linarith

/-- The total queue quantity after a sell is the previous total minus the sell
quantity, clamped at zero. -/
theorem queueQty_sellStep {q : List Lot} {s : ℚ} (hq : ∀ l ∈ q, 0 ≤ l.quantity)
    (hs : 0 ≤ s) : queueQty (sellStep q s) = max (queueQty q - s) 0 := by
  induction q generalizing s with
  | nil =>
    have h1 : queueQty ([] : List Lot) = 0 := by simp [queueQty]
    rw [sellStep, h1]
    rw [max_eq_right (by linarith)]
  | cons l rest ih =>
    have hl : 0 ≤ l.quantity := hq l (List.mem_cons_self l rest)
    have hrest : ∀ l' ∈ rest, 0 ≤ l'.quantity :=
      fun l' hl' => hq l' (List.mem_cons_of_mem l hl')
    have hsum : queueQty (l :: rest) = l.quantity + queueQty rest := by simp [queueQty]
    have hrest0 : 0 ≤ queueQty rest :=
      List.sum_nonneg (by
        intro x hx
        rcases List.mem_map.mp hx with ⟨l', hl', rfl⟩
        exact hrest l' hl')
    rw [sellStep]
    by_cases h0 : s ≤ 0
    · have hs0 : s = 0 := le_antisymm h0 hs
      rw [if_pos h0, hs0, hsum]
      rw [max_eq_left (by linarith)]
      ring
    · rw [if_neg h0]
      by_cases h1 : l.quantity ≤ s
      · rw [if_pos h1, ih hrest (by linarith), hsum]
        congr 1
        ring
      · rw [if_neg h1]
        push_neg at h0 h1
        have : queueQty ((⟨l.quantity - s, l.price, (l.quantity - s) * l.price⟩ : Lot)
            :: rest) = l.quantity - s + queueQty rest := by simp [queueQty]
        rw [this, hsum]
        rw [max_eq_left (by linarith)]
        ring

/-- Replaying a run of buys appends one lot per buy, in order. -/
theorem foldl_buys {bs : List Trade} (hb : ∀ t ∈ bs, isBuy t = true)
    (q : List Lot) : bs.foldl stepTrade q = q ++ bs.map mkLot := by
  induction bs generalizing q with
  | nil => simp
  | cons t rest ih =>
    rw [List.foldl_cons, stepTrade_buy q (hb t (List.mem_cons_self t rest)),
      ih (fun t' ht' => hb t' (List.mem_cons_of_mem t ht')), List.map_cons,
      List.append_assoc]
    rfl

theorem max_sub_clamp (x s : ℚ) (hs : 0 ≤ s) : max (max x 0 - s) 0 = max (x - s) 0 := by
  rcases le_total x 0 with h | h
  · rw [max_eq_right h, max_eq_right (by linarith), max_eq_right (by linarith)]
  · rw [max_eq_left h]

/-- Replaying a run of sells clamps the total queue quantity at zero. -/
theorem foldl_sells_qty {ss : List Trade} (hs : ∀ t ∈ ss, isSell t = true)
    (hq : ∀ t ∈ ss, 0 ≤ t.quantity) {q : List Lot} (hpos : ∀ l ∈ q, 0 < l.quantity) :
    queueQty (ss.foldl stepTrade q) =
      max (queueQty q - (ss.map (fun t => t.quantity)).sum) 0 := by
  induction ss generalizing q with
  | nil =>
    simp only [List.foldl_nil, List.map_nil, List.sum_nil, sub_zero]
    rw [max_eq_left (queueQty_nonneg hpos)]
  | cons t rest ih =>
    have ht : isSell t = true := hs t (List.mem_cons_self t rest)
    have htq : 0 ≤ t.quantity := hq t (List.mem_cons_self t rest)
    have hrest : ∀ t' ∈ rest, isSell t' = true :=
      fun t' ht' => hs t' (List.mem_cons_of_mem t ht')
    have hrestq : ∀ t' ∈ rest, 0 ≤ t'.quantity :=
      fun t' ht' => hq t' (List.mem_cons_of_mem t ht')
    have hpos' : ∀ l ∈ sellStep q t.quantity, 0 < l.quantity :=
      sellStep_pos t.quantity hpos
    rw [List.foldl_cons, stepTrade_sell q ht, ih hrest hrestq hpos',
      queueQty_sellStep (fun l hl => le_of_lt (hpos l hl)) htq,
      max_sub_clamp _ _ (List.sum_nonneg (by
        intro x hx
        rcases List.mem_map.mp hx with ⟨t', ht', rfl⟩
        exact hrestq t' ht')), List.map_cons, List.sum_cons]
    congr 1
    ring

/-- Pandas `unique()` returns exactly the strings occurring in the column. -/
theorem mem_uniqueKeys (ks : List String) (x : String) :
    x ∈ uniqueKeys ks ↔ x ∈ ks := by
  have key : ∀ (ks : List String) (acc : List String),
      x ∈ ks.foldl (fun acc k => if k ∈ acc then acc else acc ++ [k]) acc ↔
        x ∈ acc ∨ x ∈ ks := by
    intro ks
    induction ks with
    | nil => intro acc; simp
    | cons k rest ih =>
      intro acc
      rw [List.foldl_cons, ih]
      by_cases hk : k ∈ acc
      · rw [if_pos hk]
        constructor
        · rintro (h | h)
          · exact Or.inl h
          · exact Or.inr (List.mem_cons_of_mem k h)
        · rintro (h | h)
          · exact Or.inl h
          · rcases List.mem_cons.mp h with rfl | h
            · exact Or.inl hk
            · exact Or.inr h
      · rw [if_neg hk]
        constructor
        · rintro (h | h)
          · rcases List.mem_append.mp h with h | h
            · exact Or.inl h
            · exact Or.inr (List.mem_cons.mpr (Or.inl (List.mem_singleton.mp h)))
          · exact Or.inr (List.mem_cons_of_mem k h)
        · rintro (h | h)
          · exact Or.inl (List.mem_append.mpr (Or.inl h))
          · rcases List.mem_cons.mp h with rfl | h
            · exact Or.inl (List.mem_append.mpr (Or.inr (List.mem_singleton.mpr rfl)))
            · exact Or.inr h
  rw [uniqueKeys, key]
  simp

theorem listMin_spec (xs : List ℚ) (h : xs ≠ []) :
    listMin xs ∈ xs ∧ ∀ x ∈ xs, listMin xs ≤ x := by
  have key : ∀ (ys : List ℚ) (a : ℚ),
      (ys.foldl min a = a ∨ ys.foldl min a ∈ ys) ∧
        ys.foldl min a ≤ a ∧ ∀ x ∈ ys, ys.foldl min a ≤ x := by
    intro ys
    induction ys with
    | nil => intro a; simp
    | cons y rest ih =>
      intro a
      rw [List.foldl_cons]
      rcases ih (min a y) with ⟨hmem, hle, hall⟩
      refine ⟨?_, ?_, ?_⟩
      · rcases hmem with h | h
        · rcases le_total a y with hay | hay
          · rw [h, min_eq_left hay]
            exact Or.inl rfl
          · rw [h, min_eq_right hay]
            exact Or.inr (List.mem_cons_self y rest)
        · exact Or.inr (List.mem_cons_of_mem y h)
      · exact le_trans hle (min_le_left a y)
      · intro x hx
        rcases List.mem_cons.mp hx with rfl | hx
        · exact le_trans hle (min_le_right a x)
        · exact hall x hx
  cases xs with
  | nil => exact absurd rfl h
  | cons x rest =>
    rcases key rest x with ⟨hmem, hle, hall⟩
    refine ⟨?_, ?_⟩
    · rw [listMin]
      rcases hmem with h | h
      · rw [h]; exact List.mem_cons_self x rest
      · exact List.mem_cons_of_mem x h
    · intro y hy
      rw [listMin]
      rcases List.mem_cons.mp hy with rfl | hy
      · exact hle
      · exact hall y hy

theorem listMax_spec (xs : List ℚ) (h : xs ≠ []) :
    listMax xs ∈ xs ∧ ∀ x ∈ xs, x ≤ listMax xs := by
  have key : ∀ (ys : List ℚ) (a : ℚ),
      (ys.foldl max a = a ∨ ys.foldl max a ∈ ys) ∧
        a ≤ ys.foldl max a ∧ ∀ x ∈ ys, x ≤ ys.foldl max a := by
    intro ys
    induction ys with
    | nil => intro a; simp
    | cons y rest ih =>
      intro a
      rw [List.foldl_cons]
      rcases ih (max a y) with ⟨hmem, hle, hall⟩
      refine ⟨?_, ?_, ?_⟩
      · rcases hmem with h | h
        · rcases le_total a y with hay | hay
          · rw [h, max_eq_right hay]
            exact Or.inr (List.mem_cons_self y rest)
          · rw [h, max_eq_left hay]
            exact Or.inl rfl
        · exact Or.inr (List.mem_cons_of_mem y h)
      · exact le_trans (le_max_left a y) hle
      · intro x hx
        rcases List.mem_cons.mp hx with rfl | hx
        · exact le_trans (le_max_right a x) hle
        · exact hall x hx
  cases xs with
  | nil => exact absurd rfl h
  | cons x rest =>
    rcases key rest x with ⟨hmem, hle, hall⟩
    refine ⟨?_, ?_⟩
    · rw [listMax]
      rcases hmem with h | h
      · rw [h]; exact List.mem_cons_self x rest
      · exact List.mem_cons_of_mem x h
    · intro y hy
      rw [listMax]
      rcases List.mem_cons.mp hy with rfl | hy
      · exact hle
      · exact hall y hy

/-- C4: For the input sequence Buy 1.0 @ 100, Buy 1.0 @ 200, Sell 1.5 on one
instrument, compute leaves exactly one surviving lot of 0.5 at price 200 and
returns average_purchase_price = 200.00, current_holdings = 0.50000000, and
total_purchase_amount = 100.00. -/
theorem C4_concrete_scenario :
    finalQueue rowsScenario1 = [⟨1/2, 200, 100⟩] ∧
    (computePair rowsScenario1).average_purchase_price = 200 ∧
    (computePair rowsScenario1).current_holdings = 1/2 ∧
    (computePair rowsScenario1).total_purchase_amount = 100 := by
  have hq : finalQueue rowsScenario1 = [⟨1/2, 200, 100⟩] := by
    norm_num [rowsScenario1, finalQueue, stepTrade, sellStep, mkLot, isBuy_buy,
      isBuy_sell, isSell_sell, isSell_buy]
  have hqty : queueQty [(⟨1/2, 200, 100⟩ : Lot)] = 1/2 := by simp [queueQty]
  have hamt : queueAmt [(⟨1/2, 200, 100⟩ : Lot)] = 100 := by simp [queueAmt]
  refine ⟨hq, ?_, ?_, ?_⟩
  · show roundTo (if queueQty (finalQueue rowsScenario1) > 0 then
        queueAmt (finalQueue rowsScenario1) / queueQty (finalQueue rowsScenario1)
      else 0) 2 = 200
    rw [hq, hqty, hamt, if_pos (by norm_num : (1/2 : ℚ) > 0)]
    have h2 : (100 : ℚ) / (1/2) = 200 := by norm_num
    rw [h2]
    exact @roundTo_exact 200 2 20000 (by norm_num)
  · show roundTo (queueQty (finalQueue rowsScenario1)) 8 = 1/2
    rw [hq, hqty]
    exact @roundTo_exact (1/2) 8 50000000 (by norm_num)
  · show roundTo (queueAmt (finalQueue rowsScenario1)) 2 = 100
    rw [hq, hamt]
    exact @roundTo_exact 100 2 10000 (by norm_num)

/-- C1: claimed: the attached profit field equals valuation minus
total_purchase_amount.  In the code, `main` attaches
`profit = round(stats.get('valuation', 0.0) - purchase, 2)` BEFORE any
`'valuation'` key exists (its own comment says it should happen after the
valuation is computed), so the attached profit is always
`-total_purchase_amount`: here Buy 1 @ 100 with a fetched price of 200 gives
profit = -100 although valuation - total_purchase_amount = 100. -/
theorem C1_profit_attached_before_valuation :
    (enrich (computePair rowsOneBuy) (some 200)).profit = -100 ∧
    (enrich (computePair rowsOneBuy) (some 200)).valuation = 200 ∧
    (enrich (computePair rowsOneBuy) (some 200)).profit ≠
      (enrich (computePair rowsOneBuy) (some 200)).valuation -
        (computePair rowsOneBuy).total_purchase_amount := by
  have hq : finalQueue rowsOneBuy = [⟨1, 100, 100⟩] := by
    norm_num [rowsOneBuy, finalQueue, stepTrade, mkLot, isBuy_buy]
  have hamt : (computePair rowsOneBuy).total_purchase_amount = 100 := by
    show roundTo (queueAmt (finalQueue rowsOneBuy)) 2 = 100
    rw [hq]
    have h1 : queueAmt [(⟨1, 100, 100⟩ : Lot)] = 100 := by simp [queueAmt]
    rw [h1]
    exact @roundTo_exact 100 2 10000 (by norm_num)
  have hhold : (computePair rowsOneBuy).current_holdings = 1 := by
    show roundTo (queueQty (finalQueue rowsOneBuy)) 8 = 1
    rw [hq]
    have h1 : queueQty [(⟨1, 100, 100⟩ : Lot)] = 1 := by simp [queueQty]
    rw [h1]
    exact @roundTo_exact 1 8 100000000 (by norm_num)
  have hprofit : (enrich (computePair rowsOneBuy) (some 200)).profit = -100 := by
    show roundTo (0 - (computePair rowsOneBuy).total_purchase_amount) 2 = -100
    rw [hamt]
    have h1 : (0 : ℚ) - 100 = -100 := by norm_num
    rw [h1]
    exact @roundTo_exact (-100) 2 (-10000) (by norm_num)
  have hval : (enrich (computePair rowsOneBuy) (some 200)).valuation = 200 := by
    show roundTo (200 * (computePair rowsOneBuy).current_holdings) 2 = 200
    rw [hhold]
    have h1 : (200 : ℚ) * 1 = 200 := by norm_num
    rw [h1]
    exact @roundTo_exact 200 2 20000 (by norm_num)
  refine ⟨hprofit, hval, ?_⟩
  rw [hprofit, hval, hamt]
  norm_num

/-- C6 (amended): the reported total_purchase_quantity equals the sum of
remaining_quantity across the surviving lots rounded to 8 decimal places, and
equals the reported current_holdings. -/
theorem C6_reported_quantity_is_rounded_lot_sum (rows : List Trade) :
    (computePair rows).total_purchase_quantity =
      roundTo (((finalQueue rows).map (fun l => l.quantity)).sum) 8 ∧
    (computePair rows).total_purchase_quantity = (computePair rows).current_holdings :=
  ⟨rfl, rfl⟩

/-- C6 counterexample: for a buy of `1e-9`, the reported
total_purchase_quantity is 0 and differs from the (unrounded) sum `1e-9` of
remaining_quantity across the surviving lots. -/
theorem C6_counterexample :
    (computePair rowsTiny).total_purchase_quantity ≠
      ((finalQueue rowsTiny).map (fun l => l.quantity)).sum := by
  have hq : finalQueue rowsTiny = [⟨1/1000000000, 100, 1/10000000⟩] := by
    norm_num [rowsTiny, finalQueue, stepTrade, mkLot, isBuy_buy]
  have h1 : (computePair rowsTiny).total_purchase_quantity = 0 := by
    show roundTo (queueQty (finalQueue rowsTiny)) 8 = 0
    rw [hq]
    have h2 : queueQty [(⟨1/1000000000, 100, 1/10000000⟩ : Lot)] = 1/1000000000 := by
      simp [queueQty]
    rw [h2, @roundTo_eq_of (1/1000000000) 8 0 (by norm_num) (by norm_num)]
    norm_num
  have h3 : ((finalQueue rowsTiny).map (fun l => l.quantity)).sum = 1/1000000000 := by
    rw [hq]
    simp
  rw [h1, h3]
  norm_num

/-- C5 (amended): provided every Buy trade in the input has positive quantity,
then at every point during processing (i.e. after any initial segment of the
trades), every lot in the queue has remaining_quantity strictly greater
than 0. -/
theorem C5_lots_positive (trades ts1 ts2 : List Trade) (hsplit : trades = ts1 ++ ts2)
    (hb : ∀ t ∈ trades, isBuy t = true → 0 < t.quantity) :
    ∀ l ∈ finalQueue ts1, 0 < l.quantity := by
  subst hsplit
  exact foldl_pos (fun t ht => hb t (List.mem_append.mpr (Or.inl ht))) (by simp)

theorem C5_witness : 0 < (Lot.mk 1 1 1).quantity :=
  C5_lots_positive ([⟨"btc_jpy", "Buy", 1, 1⟩] ++ []) [⟨"btc_jpy", "Buy", 1, 1⟩] [] rfl
    (by simp [isBuy_buy]) ⟨1, 1, 1⟩
    (by simp [finalQueue, stepTrade, mkLot, isBuy_buy])

/-- C5 counterexample: a Buy of quantity 0 (quantities are non-negative per
the data model) leaves a lot with remaining_quantity = 0 in the queue. -/
theorem C5_counterexample :
    ¬ (∀ l ∈ finalQueue rowsZeroBuy, 0 < l.quantity) := by
  intro h
  have hq : finalQueue rowsZeroBuy = [⟨0, 100, 0⟩] := by
    norm_num [rowsZeroBuy, finalQueue, stepTrade, mkLot, isBuy_buy]
  have := h ⟨0, 100, 0⟩ (by rw [hq]; exact List.mem_singleton.mpr rfl)
  norm_num at this

/-- Non-negativity of lot quantities is preserved by the FIFO consumption
loop. -/
theorem sellStep_nonneg {q : List Lot} (s : ℚ) (h : ∀ l ∈ q, 0 ≤ l.quantity) :
    ∀ l ∈ sellStep q s, 0 ≤ l.quantity := by
  induction q generalizing s with
  | nil => intro l hl; simp [sellStep] at hl
  | cons a rest ih =>
    intro l hl
    rw [sellStep] at hl
    by_cases h0 : s ≤ 0
    · rw [if_pos h0] at hl
      exact h l hl
    · rw [if_neg h0] at hl
      by_cases h1 : a.quantity ≤ s
      · rw [if_pos h1] at hl
        exact ih (s - a.quantity) (fun l' hl' => h l' (List.mem_cons_of_mem a hl')) l hl
      · rw [if_neg h1] at hl
        rcases List.mem_cons.mp hl with hl | hl
        · rw [hl]
          simp only []
          push_neg at h0 h1
          linarith
        · exact h l (List.mem_cons_of_mem a hl)

/-- A sell strictly exceeding the total queue quantity empties the queue,
zero-quantity lots included. -/
theorem sellStep_drain {q : List Lot} {s : ℚ} (h : ∀ l ∈ q, 0 ≤ l.quantity)
    (hlt : queueQty q < s) : sellStep q s = [] := by
  induction q generalizing s with
  | nil => rfl
  | cons a rest ih =>
    have ha : 0 ≤ a.quantity := h a (List.mem_cons_self a rest)
    have hrest : ∀ l ∈ rest, 0 ≤ l.quantity :=
      fun l hl => h l (List.mem_cons_of_mem a hl)
    have hrest0 : 0 ≤ queueQty rest := List.sum_nonneg (by
      intro x hx
      rcases List.mem_map.mp hx with ⟨l, hl, rfl⟩
      exact hrest l hl)
    have hsum : queueQty (a :: rest) = a.quantity + queueQty rest := by simp [queueQty]
    rw [hsum] at hlt
    rw [sellStep, if_neg (by linarith : ¬ s ≤ 0), if_pos (by linarith : a.quantity ≤ s)]
    exact ih hrest (by linarith)

/-- Sells on an empty queue keep it empty. -/
theorem foldl_sells_nil {ss : List Trade} (hs : ∀ t ∈ ss, isSell t = true) :
    ss.foldl stepTrade [] = [] := by
  induction ss with
  | nil => rfl
  | cons t rest ih =>
    rw [List.foldl_cons, stepTrade_sell [] (hs t (List.mem_cons_self t rest))]
    have h0 : sellStep ([] : List Lot) t.quantity = [] := rfl
    rw [h0]
    exact ih (fun t' ht' => hs t' (List.mem_cons_of_mem t ht'))

/-- Replaying sells whose total quantity strictly exceeds the total queue
quantity empties the queue: some sell strictly exceeds what is left at its
turn and drains everything (zero-quantity lots included), and later sells
keep the queue empty. -/
theorem foldl_sells_drain {ss : List Trade} (hs : ∀ t ∈ ss, isSell t = true)
    (hsq : ∀ t ∈ ss, 0 ≤ t.quantity) :
    ∀ q : List Lot, (∀ l ∈ q, 0 ≤ l.quantity) →
      queueQty q < (ss.map (fun t => t.quantity)).sum →
      ss.foldl stepTrade q = [] := by
  induction ss with
  | nil =>
    intro q hq hlt
    exfalso
    have h0 : 0 ≤ queueQty q := List.sum_nonneg (by
      intro x hx
      rcases List.mem_map.mp hx with ⟨l, hl, rfl⟩
      exact hq l hl)
    simp only [List.map_nil, List.sum_nil] at hlt
    linarith
  | cons t rest ih =>
    intro q hq hlt
    have ht : isSell t = true := hs t (List.mem_cons_self t rest)
    have htq : 0 ≤ t.quantity := hsq t (List.mem_cons_self t rest)
    have hrest_s : ∀ t' ∈ rest, isSell t' = true :=
      fun t' ht' => hs t' (List.mem_cons_of_mem t ht')
    have hrest_q : ∀ t' ∈ rest, 0 ≤ t'.quantity :=
      fun t' ht' => hsq t' (List.mem_cons_of_mem t ht')
    rw [List.foldl_cons, stepTrade_sell q ht]
    rw [List.map_cons, List.sum_cons] at hlt
    by_cases hcase : queueQty q < t.quantity
    · rw [sellStep_drain hq hcase]
      exact foldl_sells_nil hrest_s
    · push_neg at hcase
      exact ih hrest_s hrest_q _ (sellStep_nonneg t.quantity hq)
        (by rw [queueQty_sellStep hq htq, max_eq_left (by linarith)]; linarith)

/-- C2 (amended): for an instrument whose trades are buys followed by sells
(all of non-negative quantity, per the data model), if the total sell quantity
exceeds the total buy quantity then the lot queue empties and the summary
reports current_holdings = 0 and average_purchase_price = 0; no error is
raised (the function is total). -/
theorem C2_oversell_empties_queue (bs ss : List Trade)
    (hb : ∀ t ∈ bs, isBuy t = true) (hbq : ∀ t ∈ bs, 0 ≤ t.quantity)
    (hs : ∀ t ∈ ss, isSell t = true) (hsq : ∀ t ∈ ss, 0 ≤ t.quantity)
    (hover : (bs.map (fun t => t.quantity)).sum < (ss.map (fun t => t.quantity)).sum) :
    finalQueue (bs ++ ss) = [] ∧
    (computePair (bs ++ ss)).current_holdings = 0 ∧
    (computePair (bs ++ ss)).average_purchase_price = 0 := by
  have hfold : finalQueue (bs ++ ss) = ss.foldl stepTrade (bs.map mkLot) := by
    rw [finalQueue, List.foldl_append, foldl_buys hb, List.nil_append]
  have hnn : ∀ l ∈ bs.map mkLot, 0 ≤ l.quantity := by
    intro l hl
    rcases List.mem_map.mp hl with ⟨t, ht, rfl⟩
    exact hbq t ht
  have hqty : queueQty (bs.map mkLot) = (bs.map (fun t => t.quantity)).sum := by
    rw [queueQty, List.map_map]
    rfl
  have hnil : finalQueue (bs ++ ss) = [] := by
    rw [hfold]
    exact foldl_sells_drain hs hsq _ hnn (by rw [hqty]; exact hover)
  have hq0 : queueQty ([] : List Lot) = 0 := rfl
  refine ⟨hnil, ?_, ?_⟩
  · show roundTo (queueQty (finalQueue (bs ++ ss))) 8 = 0
    rw [hnil, hq0]
    exact roundTo_zero 8
  · show roundTo (if queueQty (finalQueue (bs ++ ss)) > 0 then
        queueAmt (finalQueue (bs ++ ss)) / queueQty (finalQueue (bs ++ ss))
      else 0) 2 = 0
    rw [hnil, hq0, if_neg (by norm_num : ¬ ((0 : ℚ) > 0))]
    exact roundTo_zero 2

theorem C2_witness :
    finalQueue (rowsOverSellBuys ++ rowsOverSellSells) = [] ∧
    (computePair (rowsOverSellBuys ++ rowsOverSellSells)).current_holdings = 0 ∧
    (computePair (rowsOverSellBuys ++ rowsOverSellSells)).average_purchase_price = 0 :=
  C2_oversell_empties_queue rowsOverSellBuys rowsOverSellSells
    (by simp [rowsOverSellBuys, isBuy_buy]) (by norm_num [rowsOverSellBuys])
    (by simp [rowsOverSellSells, isSell_sell]) (by norm_num [rowsOverSellSells])
    (by norm_num [rowsOverSellBuys, rowsOverSellSells])

/-- C2 counterexample: without the buys-before-sells ordering the claim as
stated fails: for Sell 3 then Buy 2 the total sell quantity (3) exceeds the
total buy quantity (2), yet current_holdings = 2, not 0. -/
theorem C2_counterexample :
    ((rowsSellFirst.filter isBuy).map (fun t => t.quantity)).sum <
      ((rowsSellFirst.filter isSell).map (fun t => t.quantity)).sum ∧
    (computePair rowsSellFirst).current_holdings = 2 := by
  constructor
  · have h1 : rowsSellFirst.filter isBuy = [⟨"btc_jpy", "Buy", 2, 100⟩] := rfl
    have h2 : rowsSellFirst.filter isSell = [⟨"btc_jpy", "Sell", 3, 100⟩] := rfl
    rw [h1, h2]
    norm_num
  · have hq : finalQueue rowsSellFirst = [⟨2, 100, 200⟩] := by
      norm_num [rowsSellFirst, finalQueue, stepTrade, sellStep, mkLot, isBuy_buy,
        isBuy_sell, isSell_sell, isSell_buy]
    show roundTo (queueQty (finalQueue rowsSellFirst)) 8 = 2
    rw [hq]
    have h1 : queueQty [(⟨2, 100, 200⟩ : Lot)] = 2 := by simp [queueQty]
    rw [h1]
    exact @roundTo_exact 2 8 200000000 (by norm_num)

/-- C3: over lot-queue states of the data model (lots have positive
remaining_quantity and amount = quantity * price) and sells of non-negative
quantity at most the front lot's remaining quantity: selling exactly the front
lot's quantity removes it and leaves the newer lots unchanged in order;
selling strictly less only reduces the front lot's remaining_quantity
(recomputing its amount) and leaves every other lot unchanged. -/
theorem C3_front_lot_consumption (l : Lot) (rest : List Lot) (s : ℚ)
    (hl : 0 < l.quantity) (hamt : l.amount = l.quantity * l.price)
    (hs : 0 ≤ s) (hle : s ≤ l.quantity) :
    (s = l.quantity → sellStep (l :: rest) s = rest) ∧
    (s < l.quantity → sellStep (l :: rest) s =
      (⟨l.quantity - s, l.price, (l.quantity - s) * l.price⟩ : Lot) :: rest) := by
  constructor
  · intro heq
    rw [sellStep, if_neg (by linarith : ¬ s ≤ 0), if_pos (le_of_eq heq.symm), heq,
      sub_self]
    exact sellStep_zero rest
  · intro hlt
    by_cases h0 : s ≤ 0
    · have hs0 : s = 0 := le_antisymm h0 hs
      rw [sellStep, if_pos h0, hs0, sub_zero]
      congr 1
      cases l with
      | mk q p a =>
        dsimp at hamt ⊢
        rw [hamt]
    · push_neg at h0
      rw [sellStep, if_neg (by linarith : ¬ s ≤ 0),
        if_neg (by linarith : ¬ l.quantity ≤ s)]

theorem C3_witness :
    sellStep [Lot.mk 2 100 200, Lot.mk 1 300 300] 2 = [Lot.mk 1 300 300] :=
  (C3_front_lot_consumption (Lot.mk 2 100 200) [Lot.mk 1 300 300] 2
    (by norm_num) (by norm_num) (by norm_num) (by norm_num)).1 rfl

/-- C7 (amended): the instrument identifier is used as a case-SENSITIVE
grouping key: every produced summary is the summary of exactly the trades
whose instrument string equals the key, and every trade's exact instrument
string appears as a key. -/
theorem C7_grouping_case_sensitive (trades : List Trade) :
    (∀ kv ∈ compute trades,
      kv.2 = computePair (trades.filter (fun t => t.instrument = kv.1))) ∧
    (∀ t ∈ trades, ∃ kv ∈ compute trades, kv.1 = t.instrument) := by
  constructor
  · intro kv hkv
    rw [compute] at hkv
    rcases List.mem_map.mp hkv with ⟨k, _, rfl⟩
    rfl
  · intro t ht
    refine ⟨(t.instrument,
      computePair (trades.filter (fun x => x.instrument = t.instrument))), ?_, rfl⟩
    rw [compute]
    exact List.mem_map.mpr ⟨t.instrument,
      (mem_uniqueKeys _ _).mpr (List.mem_map_of_mem _ ht), rfl⟩

theorem C7_witness :
    ∃ kv ∈ compute rowsTwoCases, kv.1 = (Trade.mk "btc_jpy" "Buy" 1 100).instrument :=
  (C7_grouping_case_sensitive rowsTwoCases).2 ⟨"btc_jpy", "Buy", 1, 100⟩ (by decide)

/-- C7 counterexample: two trades whose instrument strings differ only in
letter case are NOT grouped together: "btc_jpy" and "BTC_JPY" produce two
separate summaries, each counting a single purchase, instead of one shared
summary. -/
theorem C7_counterexample :
    (compute rowsTwoCases).map Prod.fst = ["btc_jpy", "BTC_JPY"] ∧
    ∀ kv ∈ compute rowsTwoCases, kv.2.purchase_count = 1 := by
  constructor
  · rfl
  · decide

/-- C8 (amended): for every input sequence consisting only of Buy trades with
positive total quantity, the returned average_purchase_price equals the
quantity-weighted mean of the buy prices rounded to 2 decimal places. -/
theorem C8_all_buys_weighted_mean (rows : List Trade)
    (hb : ∀ t ∈ rows, isBuy t = true)
    (hq : 0 < (rows.map (fun t => t.quantity)).sum) :
    (computePair rows).average_purchase_price =
      roundTo ((rows.map (fun t => t.quantity * t.price)).sum /
        (rows.map (fun t => t.quantity)).sum) 2 := by
  have hfq : finalQueue rows = rows.map mkLot := by
    rw [finalQueue, foldl_buys hb, List.nil_append]
  have hqty : queueQty (finalQueue rows) = (rows.map (fun t => t.quantity)).sum := by
    rw [hfq, queueQty, List.map_map]
    rfl
  have hamt : queueAmt (finalQueue rows) =
      (rows.map (fun t => t.quantity * t.price)).sum := by
    rw [hfq, queueAmt, List.map_map]
    rfl
  show roundTo (if queueQty (finalQueue rows) > 0 then
      queueAmt (finalQueue rows) / queueQty (finalQueue rows) else 0) 2 = _
  rw [hqty, hamt, if_pos hq]

theorem C8_witness :
    (computePair rowsOneBuy).average_purchase_price =
      roundTo ((rowsOneBuy.map (fun t => t.quantity * t.price)).sum /
        (rowsOneBuy.map (fun t => t.quantity)).sum) 2 :=
  C8_all_buys_weighted_mean rowsOneBuy (by simp [rowsOneBuy, isBuy_buy])
    (by norm_num [rowsOneBuy])

/-- C8 counterexample: for Buy 2 @ 100, Buy 1 @ 101 the weighted mean is
301/3 = 100.333…, but the returned average_purchase_price is the rounded
100.33, so the two are not exactly equal. -/
theorem C8_counterexample :
    (computePair rowsTwoBuys).average_purchase_price = 10033/100 ∧
    (computePair rowsTwoBuys).average_purchase_price ≠
      (rowsTwoBuys.map (fun t => t.quantity * t.price)).sum /
        (rowsTwoBuys.map (fun t => t.quantity)).sum := by
  have hfq : finalQueue rowsTwoBuys = [⟨2, 100, 200⟩, ⟨1, 101, 101⟩] := by
    norm_num [rowsTwoBuys, finalQueue, stepTrade, mkLot, isBuy_buy]
  have havg : (computePair rowsTwoBuys).average_purchase_price = 10033/100 := by
    show roundTo (if queueQty (finalQueue rowsTwoBuys) > 0 then
        queueAmt (finalQueue rowsTwoBuys) / queueQty (finalQueue rowsTwoBuys)
      else 0) 2 = 10033/100
    rw [hfq]
    have h1 : queueQty [(⟨2, 100, 200⟩ : Lot), ⟨1, 101, 101⟩] = 3 := by
      norm_num [queueQty]
    have h2 : queueAmt [(⟨2, 100, 200⟩ : Lot), ⟨1, 101, 101⟩] = 301 := by
      norm_num [queueAmt]
    rw [h1, h2, if_pos (by norm_num : (3 : ℚ) > 0),
      @roundTo_eq_of (301/3) 2 10033 (by norm_num) (by norm_num)]
    norm_num
  refine ⟨havg, ?_⟩
  rw [havg]
  have hmean : (rowsTwoBuys.map (fun t => t.quantity * t.price)).sum /
      (rowsTwoBuys.map (fun t => t.quantity)).sum = 301/3 := by
    norm_num [rowsTwoBuys]
  rw [hmean]
  norm_num

/-- C9 (amended): min_price and max_price are the minimum and maximum of the
price field over all of the instrument's trade rows regardless of side,
rounded to 2 decimal places (they equal the rounded price of a row whose
price is minimal resp. maximal); for Buy@100, Sell@150, Buy@90 this gives
min_price = 90 and max_price = 150. -/
theorem C9_minmax_rounded (rows : List Trade) (h : rows ≠ []) :
    (∃ r ∈ rows, (computePair rows).min_price = roundTo r.price 2 ∧
      ∀ t ∈ rows, r.price ≤ t.price) ∧
    (∃ r ∈ rows, (computePair rows).max_price = roundTo r.price 2 ∧
      ∀ t ∈ rows, t.price ≤ r.price) ∧
    (computePair rowsMinMax).min_price = 90 ∧
    (computePair rowsMinMax).max_price = 150 := by
  have hmapne : rows.map (fun t => t.price) ≠ [] := by
    intro hc
    exact h (List.map_eq_nil_iff.mp hc)
  rcases listMin_spec _ hmapne with ⟨hmem, hle⟩
  rcases listMax_spec _ hmapne with ⟨hmem2, hle2⟩
  rcases List.mem_map.mp hmem with ⟨r, hr, hrp0⟩
  rcases List.mem_map.mp hmem2 with ⟨r2, hr2, hrp20⟩
  have hrp : r.price = listMin (rows.map (fun t => t.price)) := hrp0
  have hrp2 : r2.price = listMax (rows.map (fun t => t.price)) := hrp20
  have hpl : rowsMinMax.map (fun t => t.price) = [100, 150, 90] := by
    simp [rowsMinMax]
  refine ⟨⟨r, hr, ?_, ?_⟩, ⟨r2, hr2, ?_, ?_⟩, ?_, ?_⟩
  · show roundTo (listMin (rows.map (fun t => t.price))) 2 = roundTo r.price 2
    rw [hrp]
  · intro t ht
    rw [hrp]
    exact hle _ (List.mem_map_of_mem _ ht)
  · show roundTo (listMax (rows.map (fun t => t.price))) 2 = roundTo r2.price 2
    rw [hrp2]
  · intro t ht
    rw [hrp2]
    exact hle2 _ (List.mem_map_of_mem _ ht)
  · show roundTo (listMin (rowsMinMax.map (fun t => t.price))) 2 = 90
    rw [hpl]
    have hm : listMin [(100 : ℚ), 150, 90] = 90 := by
      norm_num [listMin, List.foldl, min_def]
    rw [hm]
    exact @roundTo_exact 90 2 9000 (by norm_num)
  · show roundTo (listMax (rowsMinMax.map (fun t => t.price))) 2 = 150
    rw [hpl]
    have hm : listMax [(100 : ℚ), 150, 90] = 150 := by
      norm_num [listMax, List.foldl, max_def]
    rw [hm]
    exact @roundTo_exact 150 2 15000 (by norm_num)

theorem C9_witness :
    (∃ r ∈ rowsMinMax, (computePair rowsMinMax).min_price = roundTo r.price 2 ∧
      ∀ t ∈ rowsMinMax, r.price ≤ t.price) ∧
    (∃ r ∈ rowsMinMax, (computePair rowsMinMax).max_price = roundTo r.price 2 ∧
      ∀ t ∈ rowsMinMax, t.price ≤ r.price) ∧
    (computePair rowsMinMax).min_price = 90 ∧
    (computePair rowsMinMax).max_price = 150 :=
  C9_minmax_rounded rowsMinMax (by decide)

/-- C9 counterexample: for a single row with price 100.004 the reported
min_price is the rounded 100, not the actual minimum 100.004 of the price
column. -/
theorem C9_counterexample :
    (computePair rowsOddPrice).min_price = 100 ∧
    (computePair rowsOddPrice).min_price ≠
      listMin (rowsOddPrice.map (fun t => t.price)) := by
  have hpl : rowsOddPrice.map (fun t => t.price) = [100 + 1/250] := by
    simp [rowsOddPrice]
  have hmin : listMin [(100 + 1/250 : ℚ)] = 100 + 1/250 := rfl
  have h1 : (computePair rowsOddPrice).min_price = 100 := by
    show roundTo (listMin (rowsOddPrice.map (fun t => t.price))) 2 = 100
    rw [hpl, hmin, @roundTo_eq_of (100 + 1/250) 2 10000 (by norm_num) (by norm_num)]
    norm_num
  refine ⟨h1, ?_⟩
  rw [h1, hpl, hmin]
  norm_num

/-- C10 (amended): a Sell trade of quantity 0 leaves the lot queue exactly
unchanged wherever it is inserted; in the summary it affects only sell_count,
total_transactions and (through its price entering the range) possibly
min_price/max_price, leaving average_purchase_price, total_purchase_quantity,
total_purchase_amount, current_holdings and purchase_count as they would be
without it. -/
theorem C10_sell_zero_noop (ts1 ts2 : List Trade) (t : Trade)
    (h1 : isSell t = true) (h2 : t.quantity = 0) :
    (∀ q : List Lot, sellStep q 0 = q) ∧
    finalQueue (ts1 ++ t :: ts2) = finalQueue (ts1 ++ ts2) ∧
    (computePair (ts1 ++ t :: ts2)).average_purchase_price =
      (computePair (ts1 ++ ts2)).average_purchase_price ∧
    (computePair (ts1 ++ t :: ts2)).total_purchase_quantity =
      (computePair (ts1 ++ ts2)).total_purchase_quantity ∧
    (computePair (ts1 ++ t :: ts2)).total_purchase_amount =
      (computePair (ts1 ++ ts2)).total_purchase_amount ∧
    (computePair (ts1 ++ t :: ts2)).current_holdings =
      (computePair (ts1 ++ ts2)).current_holdings ∧
    (computePair (ts1 ++ t :: ts2)).purchase_count =
      (computePair (ts1 ++ ts2)).purchase_count ∧
    (computePair (ts1 ++ t :: ts2)).sell_count =
      (computePair (ts1 ++ ts2)).sell_count + 1 ∧
    (computePair (ts1 ++ t :: ts2)).total_transactions =
      (computePair (ts1 ++ ts2)).total_transactions + 1 := by
  have hbuyf : isBuy t = false := isBuy_false_of_isSell h1
  have hstep : ∀ q : List Lot, stepTrade q t = q := by
    intro q
    rw [stepTrade_sell q h1, h2, sellStep_zero]
  have hqueue : finalQueue (ts1 ++ t :: ts2) = finalQueue (ts1 ++ ts2) := by
    rw [finalQueue, finalQueue, List.foldl_append, List.foldl_append,
      List.foldl_cons, hstep]
  refine ⟨sellStep_zero, hqueue, ?_, ?_, ?_, ?_, ?_, ?_, ?_⟩
  · show roundTo (if queueQty (finalQueue (ts1 ++ t :: ts2)) > 0 then
        queueAmt (finalQueue (ts1 ++ t :: ts2)) /
          queueQty (finalQueue (ts1 ++ t :: ts2))
      else 0) 2 =
      roundTo (if queueQty (finalQueue (ts1 ++ ts2)) > 0 then
        queueAmt (finalQueue (ts1 ++ ts2)) / queueQty (finalQueue (ts1 ++ ts2))
      else 0) 2
    rw [hqueue]
  · show roundTo (queueQty (finalQueue (ts1 ++ t :: ts2))) 8 =
      roundTo (queueQty (finalQueue (ts1 ++ ts2))) 8
    rw [hqueue]
  · show roundTo (queueAmt (finalQueue (ts1 ++ t :: ts2))) 2 =
      roundTo (queueAmt (finalQueue (ts1 ++ ts2))) 2
    rw [hqueue]
  · show roundTo (queueQty (finalQueue (ts1 ++ t :: ts2))) 8 =
      roundTo (queueQty (finalQueue (ts1 ++ ts2))) 8
    rw [hqueue]
  · show ((ts1 ++ t :: ts2).filter isBuy).length = ((ts1 ++ ts2).filter isBuy).length
    simp [List.filter_append, List.filter_cons, hbuyf]
  · show ((ts1 ++ t :: ts2).filter isSell).length =
      ((ts1 ++ ts2).filter isSell).length + 1
    simp only [List.filter_append, List.filter_cons, h1, if_true, List.length_append,
      List.length_cons]
    omega
  · show (ts1 ++ t :: ts2).length = (ts1 ++ ts2).length + 1
    simp only [List.length_append, List.length_cons]
    omega

theorem C10_witness :
    sellStep [Lot.mk 1 1 1] 0 = [Lot.mk 1 1 1] ∧
    finalQueue (rowsOneBuy ++ tradeSellZero :: []) = finalQueue (rowsOneBuy ++ []) ∧
    (computePair (rowsOneBuy ++ tradeSellZero :: [])).sell_count =
      (computePair (rowsOneBuy ++ [])).sell_count + 1 := by
  have h := C10_sell_zero_noop rowsOneBuy [] tradeSellZero rfl rfl
  exact ⟨h.1 [Lot.mk 1 1 1], h.2.1, h.2.2.2.2.2.2.2.1⟩

/-- C10 counterexample: a Sell of quantity 0 does not affect ONLY sell_count
and total_transactions: its price enters the min/max range, so appending
Sell 0 @ 999 to a Buy @ 100 changes max_price from 100 to 999. -/
theorem C10_counterexample :
    isSell tradeSellZero = true ∧ tradeSellZero.quantity = 0 ∧
    (computePair rowsSellZero).max_price = 999 ∧
    (computePair rowsOneBuy).max_price = 100 := by
  refine ⟨rfl, rfl, ?_, ?_⟩
  · show roundTo (listMax (rowsSellZero.map (fun t => t.price))) 2 = 999
    have hpl : rowsSellZero.map (fun t => t.price) = [100, 999] := by
      simp [rowsSellZero, tradeSellZero]
    rw [hpl]
    have hm : listMax [(100 : ℚ), 999] = 999 := by
      norm_num [listMax, List.foldl, max_def]
    rw [hm]
    exact @roundTo_exact 999 2 99900 (by norm_num)
  · show roundTo (listMax (rowsOneBuy.map (fun t => t.price))) 2 = 100
    have hpl : rowsOneBuy.map (fun t => t.price) = [100] := by simp [rowsOneBuy]
    rw [hpl]
    have hm : listMax [(100 : ℚ)] = 100 := rfl
    rw [hm]
    exact @roundTo_exact 100 2 10000 (by norm_num)

end TradingAnalyzer
